import Mathlib

/-!
Verification of `pkg/logwatch/watcher.go` (and, from the specification, the
event-translation rule of `pkg/symnotify`) of the log-file-metric-exporter
repository. Paths and label values are modelled as lists of characters,
byte counts as naturals, and the filesystem seen by `Update` as an abstract
stat/readDir oracle.
-/

namespace LogWatch

/-- A filesystem path (a Go `string`), modelled as its list of characters. -/
abbrev Path := List Char

/-- Character class `[a-z0-9-]` of the namespace, pod-name and container-name
capture groups of the `logFile` regular expression (watcher.go line 19). -/
def nameChar (c : Char) : Bool :=
  (decide ('a' ≤ c) && decide (c ≤ 'z')) || (decide ('0' ≤ c) && decide (c ≤ '9')) || c == '-'

/-- Character class `[a-f0-9-]` of the pod-UUID capture group of the `logFile`
and `logPodDir` regular expressions (watcher.go lines 19-20). -/
def uuidChar (c : Char) : Bool :=
  (decide ('a' ≤ c) && decide (c ≤ 'f')) || (decide ('0' ≤ c) && decide (c ≤ '9')) || c == '-'

/-- The labels of a Pod log file (watcher.go lines 27-29). -/
structure LogLabels where
  Namespace : Path
  Name : Path
  UUID : Path
  Container : Path
deriving DecidableEq

/-- Greedy match of one fragment of the regular expressions: a nonempty run of
characters of the class `p` (the `+`-repeated character class) followed by the
literal separator `sep`; returns the run and the remainder after the separator.
This is exactly RE2's behaviour on the fragments of `logFile` and `logPodDir`:
none of the classes contains `_` or `/`, so no shorter run than the maximal one
can be followed by the separator and backtracking never produces another split. -/
def expectRun (p : Char → Bool) (sep : Char) (x : Path) : Option (Path × Path) :=
  match x.dropWhile p with
  | c :: rest => if x.takeWhile p ≠ [] ∧ c = sep then some (x.takeWhile p, rest) else none
  | [] => none

/-- One attempted match of the structured part
`/([a-z0-9-]+)_([a-z0-9-]+)_([a-f0-9-]+)/([a-z0-9-]+)/` of the `logFile`
regular expression (watcher.go line 19), anchored at the head of `x`; returns
the four capture groups and the remainder after the final `/`. -/
def structParse (x : Path) : Option (LogLabels × Path) :=
  match x with
  | c :: rest =>
    if c = '/' then
      match expectRun nameChar '_' rest with
      | some (a, r1) =>
        match expectRun nameChar '_' r1 with
        | some (b, r2) =>
          match expectRun uuidChar '/' r2 with
          | some (u, r3) =>
            match expectRun nameChar '/' r3 with
            | some (d, r4) => some (⟨a, b, u, d⟩, r4)
            | none => none
          | none => none
        | none => none
      | none => none
    else none
  | [] => none

/-- Does `x` begin with the literal `.log`? -/
def isDotLog (x : Path) : Bool :=
  List.isPrefixOf ['.', 'l', 'o', 'g'] x

/-- The trailing `.*\.log` of the `logFile` regular expression, applied to the
remainder after the structured part. RE2's `.` does not match a newline, so a
match requires an occurrence of `.log` with no newline before it. -/
def hasTail (x : Path) : Bool :=
  match x with
  | [] => false
  | c :: rest => isDotLog (c :: rest) || (c != '\n' && hasTail rest)

/-- The whole `logFile` regular expression attempted at the head of `x`. -/
def parseAt (x : Path) : Option LogLabels :=
  match structParse x with
  | some (l, r) => if hasTail r then some l else none
  | none => none

/-- `LogLabels.Parse` (watcher.go lines 31-38): `logFile.FindStringSubmatch`
returns the capture groups of the match at the leftmost matching position, and
`Parse` stores them into the label struct; `none` models its `return false`. -/
def parse (x : Path) : Option LogLabels :=
  match x with
  | [] => none
  | c :: rest =>
    match parseAt (c :: rest) with
    | some l => some l
    | none => parse rest

/-- Does `x` consist exactly of `A_B_C` with `A`, `B` nonempty `[a-z0-9-]` runs
and `C` a nonempty `[a-f0-9-]` run? This is the part of `logPodDir` after its
leading `/`, anchored at the end by the `$`. -/
def segTriple (x : Path) : Bool :=
  match expectRun nameChar '_' x with
  | some (_, r1) =>
    match expectRun nameChar '_' r1 with
    | some (_, r2) => decide (r2 ≠ []) && r2.all uuidChar
    | none => false
  | none => false

/-- A match of `logPodDir` = `/([a-z0-9-]+)_([a-z0-9-]+)_([a-f0-9-]+)$`
(watcher.go line 20) starting at the head of `x` and reaching the end. -/
def podDirAt (x : Path) : Bool :=
  match x with
  | c :: rest => c == '/' && segTriple rest
  | [] => false

/-- Existence of a `logPodDir` match anywhere in `x`: the test
`logPodDir.FindStringSubmatch(path) != nil` of `Watcher.Remove`
(watcher.go line 119). -/
def isPodDir (x : Path) : Bool :=
  match x with
  | [] => false
  | c :: rest => podDirAt (c :: rest) || isPodDir rest

/-- The mutable state of `Watcher` (watcher.go lines 40-44): `sizes` is the
`map[string]float64` of last observed sizes, `metrics` the `CounterVec` of the
per-label byte counters. Byte counts are modelled as naturals. -/
structure WState where
  sizes : List (Path × Nat)
  metrics : List (LogLabels × Nat)
deriving DecidableEq

/-- First value bound to `k` in an association list, if any: a Go map read, or
the lookup of an existing counter series. -/
def alistGet {α : Type} [DecidableEq α] (m : List (α × Nat)) (k : α) : Option Nat :=
  match m with
  | [] => none
  | kv :: rest => if kv.1 = k then some kv.2 else alistGet rest k

/-- Go map read with the zero value: `w.sizes[path]` yields 0 when the key is
absent; also the starting value of a freshly created counter series. -/
def getOr0 {α : Type} [DecidableEq α] (m : List (α × Nat)) (k : α) : Nat :=
  (alistGet m k).getD 0

/-- Go map store / counter store: replace the binding of `k`, or append it. -/
def alistSet {α : Type} [DecidableEq α] (m : List (α × Nat)) (k : α) (v : Nat) : List (α × Nat) :=
  match m with
  | [] => [(k, v)]
  | kv :: rest => if kv.1 = k then (k, v) :: rest else kv :: alistSet rest k v

/-- Result of `os.Stat`: success with the file length, a does-not-exist error
(`os.IsNotExist(err)`), or any other error. -/
inductive StatResult
  | ok (size : Nat)
  | notExist
  | otherErr
deriving DecidableEq

/-- The filesystem as seen by `Update`: `stat` models `os.Stat(path)`, and
`readDir` models `ioutil.ReadDir(path)`, returning the base names of the
immediate children or `none` when `ReadDir` fails. -/
structure FS where
  stat : Path → StatResult
  readDir : Path → Option (List Path)

/-- `filepath.Join(dir, info.Name())` for a clean directory path and a base
name: concatenation with a `/` separator (`Join` additionally runs `Clean`,
which is the identity on the already-clean paths joined here). -/
def fjoin (dir name : Path) : Path := dir ++ '/' :: name

/-- `Watcher.Update` (watcher.go lines 78-116). Returns the new state together
with the list of paths for which the deferred handler logs an error
(`err != nil && !os.IsNotExist(err)`). On a `logFile` match: stat the path,
read the last size (0 when absent), store the new size unconditionally, and
add the grown difference — or, when the file shrank (truncation), the entire
current size — to the counter of the parsed labels (`GetMetricWithLabelValues`
creates an absent series at 0 before the `Add`). A does-not-exist stat error
is skipped silently; any other stat error is logged and skipped. On a failed
match the path is read as a directory and `Update` recurses on each child,
joined with `filepath.Join`; a `ReadDir` error (its `err` is shadowed, so
never logged) silently ignores the path. The `fuel` bound on the recursion
depth stands for the finiteness of the directory tree. -/
def update (fs : FS) : Nat → WState → Path → WState × List Path
  | 0, st, _ => (st, [])
  | fuel + 1, st, path =>
    match parse path with
    | some l =>
      match fs.stat path with
      | .ok size =>
        let lastSize := getOr0 st.sizes path
        let add := if lastSize ≤ size then size - lastSize else size
        (⟨alistSet st.sizes path size,
          alistSet st.metrics l (getOr0 st.metrics l + add)⟩, [])
      | .notExist => (st, [])
      | .otherErr => (st, [path])
    | none =>
      match fs.readDir path with
      | some names =>
        names.foldl (fun acc n =>
          let r := update fs fuel acc.1 (fjoin path n)
          (r.1, acc.2 ++ r.2)) (st, [])
      | none => (st, [])

/-- `Watcher.Remove` (watcher.go lines 118-130). When `logPodDir` matches the
path, the loop ranges over the original `sizes` entries (Go's range visits
every entry not deleted before its turn, and only the visited entry is ever
deleted, so each original entry is visited exactly once): every entry whose
key has `path` as a lexical prefix (`filepath.HasPrefix` is
`strings.HasPrefix` on Unix) is deleted from `sizes`, and for each such key
that parses as a log file its label combination is deleted from the counter
vector (`DeleteLabelValues`). Any other path leaves the state unchanged. -/
def remove (st : WState) (path : Path) : WState :=
  if isPodDir path then
    ⟨st.sizes.filter (fun kv => ! path.isPrefixOf kv.1),
     st.metrics.filter (fun lv =>
       ! st.sizes.any (fun kv => path.isPrefixOf kv.1 && parse kv.1 == some lv.1))⟩
  else st

/-- The `fsnotify.Op` values seen by the run loop. -/
inductive Op
  | create | write | remove | rename | chmod
deriving DecidableEq

/-- A `symnotify.Event`: the externally visible path and the operation. -/
structure Event where
  name : Path
  op : Op
deriving DecidableEq

/-- One result of `w.watcher.Event()`: an event, the `io.EOF` end-of-stream
sentinel, or another error (carrying an abstract error code). -/
inductive EvResult
  | ev (e : Event)
  | eof
  | fail (code : Nat)
deriving DecidableEq

/-- Outcome of `Watcher.Watch`: returned `nil`, returned an error, or still
blocked in `Event()` (the modelled finite stream ran out with no sentinel). -/
inductive WatchOutcome
  | cleanExit
  | failed (code : Nat)
  | pending
deriving DecidableEq

/-- `Watcher.Watch` (watcher.go lines 132-146), driven by the stream of
`Event()` results: `io.EOF` returns `nil`; any other error is returned; an
event with op `Remove` routes to `Watcher.Remove`; an event with any other op
routes to `Watcher.Update`. -/
def watch (fs : FS) (fuel : Nat) : WState → List EvResult → WState × WatchOutcome
  | st, [] => (st, .pending)
  | st, r :: rest =>
    match r with
    | .eof => (st, .cleanExit)
    | .fail code => (st, .failed code)
    | .ev e =>
      if e.op = Op.remove then watch fs fuel (remove st e.name) rest
      else watch fs fuel (update fs fuel st e.name).1 rest

/-- Modelled from the spec: the `symnotify` watcher implementation
(`pkg/symnotify/symnotify.go`) is not under `src/`; only its test is. Per the
spec (§4.1), a watcher that follows a symlink registers the link's resolved
target and remembers that target's identity; `targetId` stands for the
identity (inode) of the currently registered target file. -/
structure SymLink where
  linkPath : Path
  targetId : Nat

/-- Modelled from the spec: translation of an event reported for the
registered target of a symlink (spec §4.1, event-translation rule 2, and
Scenario D): the forwarded event substitutes `Name` with the link's own path,
preserving `Op` — except when the file behind the target path has changed
identity, in which case the watcher re-resolves and re-registers the new
target and emits a single `Chmod` event on the link path, instead of a
`Create`/`Remove` pair. -/
def translateTargetEvent (lk : SymLink) (currentId : Nat) (op : Op) : Event × SymLink :=
  if currentId = lk.targetId then (⟨lk.linkPath, op⟩, lk)
  else (⟨lk.linkPath, Op.chmod⟩, ⟨lk.linkPath, currentId⟩)

/-- A well-formed capture-group run: nonempty, every character in the class. -/
abbrev goodRun (p : Char → Bool) (a : Path) : Prop := a ≠ [] ∧ ∀ c ∈ a, p c = true

/-- Well-formed label values: each group nonempty and within its class. -/
abbrev goodLabels (l : LogLabels) : Prop :=
  goodRun nameChar l.Namespace ∧ goodRun nameChar l.Name ∧
    goodRun uuidChar l.UUID ∧ goodRun nameChar l.Container

/-- The decomposition realised by a successful `structParse`. -/
def StructDecomp (x : Path) (l : LogLabels) (r : Path) : Prop :=
  goodLabels l ∧
    x = '/' :: l.Namespace ++ '_' :: l.Name ++ '_' :: l.UUID ++
      '/' :: l.Container ++ '/' :: r

/-- The letter of claim C9: the path contains a substring
`/<ns>_<pod>_<uuid>/<container>/` followed anywhere later by `.log`. -/
def claimedContains (x : Path) (l : LogLabels) : Prop :=
  goodLabels l ∧ ∃ u v w,
    x = u ++ '/' :: l.Namespace ++ '_' :: l.Name ++ '_' :: l.UUID ++
      '/' :: l.Container ++ '/' :: v ++ '.' :: 'l' :: 'o' :: 'g' :: w

/-- The shape the code actually accepts (for some choice of labels): as in
`claimedContains`, but RE2's `.` does not match a newline, so no newline may
stand between the container segment and the `.log` occurrence. -/
def acceptedShape (x : Path) : Prop :=
  ∃ l u v w, goodLabels l ∧ '\n' ∉ v ∧
    x = u ++ '/' :: l.Namespace ++ '_' :: l.Name ++ '_' :: l.UUID ++
      '/' :: l.Container ++ '/' :: v ++ '.' :: 'l' :: 'o' :: 'g' :: w

theorem alistGet_alistSet_same {α : Type} [DecidableEq α] (m : List (α × Nat)) (k : α) (v : Nat) :
    alistGet (alistSet m k v) k = some v := by
  induction m with
  | nil => simp [alistSet, alistGet]
  | cons kv rest ih =>
    by_cases h : kv.1 = k
    · simp [alistSet, alistGet, h]
    · simp [alistSet, alistGet, h, ih]

theorem getOr0_alistSet_same {α : Type} [DecidableEq α] (m : List (α × Nat)) (k : α) (v : Nat) :
    getOr0 (alistSet m k v) k = v := by
  simp [getOr0, alistGet_alistSet_same]

theorem alistGet_alistSet_ne {α : Type} [DecidableEq α] (m : List (α × Nat)) (k k' : α)
    (v : Nat) (h : k ≠ k') : alistGet (alistSet m k v) k' = alistGet m k' := by
  induction m with
  | nil => simp [alistSet, alistGet, h]
  | cons kv rest ih =>
    by_cases hk : kv.1 = k
    · simp [alistSet, alistGet, hk, h]
    · simp [alistSet, alistGet, hk, ih]

/-- Demonstration fixtures used by the concrete witnesses below. -/
def demoLog : Path := "/ns-1_pod-1_0a-b/ctr/0.log".toList

def demoLabels : LogLabels := ⟨"ns-1".toList, "pod-1".toList, "0a-b".toList, "ctr".toList⟩

def demoPod : Path := "/ns-1_pod-1_0a-b".toList

def demoFS : FS := ⟨fun _ => StatResult.ok 12, fun _ => none⟩

def failFS : FS := ⟨fun _ => StatResult.notExist, fun _ => none⟩

def errFS : FS := ⟨fun _ => StatResult.otherErr, fun _ => none⟩

def demoDir : Path := "/var".toList

def demoChild : Path := "a".toList

def demoNoDir : Path := "/tmp".toList

def demoDirFS : FS :=
  ⟨fun _ => StatResult.ok 5, fun p => if p = demoDir then some [demoChild] else none⟩

example : parse ("/a_b_c/d/0.log".toList) = some ⟨"a".toList, "b".toList, "c".toList, "d".toList⟩ := by decide

example : parse ("/x_y_e/w/p_q_a/f/0.log".toList) =
    some ⟨"x".toList, "y".toList, "e".toList, "w".toList⟩ := by decide

example : parse ("/a_b_c/d/".toList ++ '\n' :: "x.log".toList) = none := by decide

example : isPodDir ("/var/a_b_c".toList) = true := by decide

example : isPodDir ("/var/a_b_c/d/0.log".toList) = false := by decide

/-- C1: for a path the label extractor accepts whose stat succeeds with
current length `size`, with `lastSize` the stored `SizeTable` value (0 when
absent), `Update` adds `size - lastSize` to the container's counter when
`lastSize ≤ size` and the entire current `size` when `size < lastSize`, and
stores `size` into `SizeTable[path]` unconditionally in both cases. -/
theorem update_logfile_stat_ok (fs : FS) (fuel : Nat) (st : WState) (path : Path)
    (l : LogLabels) (size : Nat)
    (hp : parse path = some l) (hs : fs.stat path = .ok size) :
    (update fs (fuel + 1) st path).1.sizes = alistSet st.sizes path size ∧
    getOr0 (update fs (fuel + 1) st path).1.metrics l =
      getOr0 st.metrics l +
        (if getOr0 st.sizes path ≤ size then size - getOr0 st.sizes path else size) := by
  simp [update, hp, hs, getOr0_alistSet_same]

/-- Witness for C1: a fresh state observes a 12-byte log file and credits all
12 bytes to the container's counter. -/
theorem update_logfile_stat_ok_witness :
    (update demoFS 1 ⟨[], []⟩ demoLog).1.sizes = alistSet [] demoLog 12 ∧
    getOr0 (update demoFS 1 ⟨[], []⟩ demoLog).1.metrics demoLabels =
      getOr0 ([] : List (LogLabels × Nat)) demoLabels +
        (if getOr0 ([] : List (Path × Nat)) demoLog ≤ 12
          then 12 - getOr0 ([] : List (Path × Nat)) demoLog else 12) :=
  update_logfile_stat_ok demoFS 0 ⟨[], []⟩ demoLog demoLabels 12 (by decide) rfl

/-- C5: in `Update`, when stat of a label-matching path fails with a
does-not-exist error the call is skipped silently (no log, no change to
`SizeTable` or the counters); when stat fails with any other error the failure
is logged and the call is likewise skipped with no state change. -/
theorem update_stat_failure (fs : FS) (fuel : Nat) (st : WState) (path : Path)
    (l : LogLabels) (hp : parse path = some l) :
    (fs.stat path = .notExist → update fs (fuel + 1) st path = (st, [])) ∧
    (fs.stat path = .otherErr → update fs (fuel + 1) st path = (st, [path])) := by
  constructor <;> intro hs <;> simp only [update, hp, hs]

/-- Witness for C5: a vanished file changes nothing and logs nothing; another
stat failure changes nothing and logs the path. -/
theorem update_stat_failure_witness :
    update failFS 1 ⟨[], []⟩ demoLog = (⟨[], []⟩, []) ∧
    update errFS 1 ⟨[], []⟩ demoLog = (⟨[], []⟩, [demoLog]) :=
  ⟨(update_stat_failure failFS 0 ⟨[], []⟩ demoLog demoLabels (by decide)).1 rfl,
   (update_stat_failure errFS 0 ⟨[], []⟩ demoLog demoLabels (by decide)).2 rfl⟩

theorem update_children_fst (fs : FS) (fuel : Nat) (path : Path) :
    ∀ (names : List Path) (st : WState) (logs : List Path),
      (names.foldl (fun acc n =>
        let r := update fs fuel acc.1 (fjoin path n)
        (r.1, acc.2 ++ r.2)) (st, logs)).1 =
      names.foldl (fun s n => (update fs fuel s (fjoin path n)).1) st := by
  intro names
  induction names with
  | nil => intro st logs; rfl
  | cons n ns ih => intro st logs; exact ih ..

/-- C6: for every path on which label extraction fails, `Update` treats the
path as a directory: it lists the immediate children and recursively applies
`Update` to each child in order; when the listing fails (the path is not a
readable directory) the path is ignored with no state change. -/
theorem update_nonmatching_recurses (fs : FS) (fuel : Nat) (st : WState) (path : Path)
    (hp : parse path = none) :
    (∀ names, fs.readDir path = some names →
      (update fs (fuel + 1) st path).1 =
        names.foldl (fun s n => (update fs fuel s (fjoin path n)).1) st) ∧
    (fs.readDir path = none → update fs (fuel + 1) st path = (st, [])) := by
  constructor
  · intro names hd
    simp only [update, hp, hd]
    exact update_children_fst ..
  · intro hd
    simp only [update, hp, hd]

/-- Witness for C6: a directory with one child recurses into the child; an
unreadable path is ignored unchanged. -/
theorem update_nonmatching_recurses_witness :
    ((update demoDirFS 1 ⟨[], []⟩ demoDir).1 =
      [demoChild].foldl (fun s n => (update demoDirFS 0 s (fjoin demoDir n)).1) ⟨[], []⟩) ∧
    update demoDirFS 1 ⟨[], []⟩ demoNoDir = (⟨[], []⟩, []) :=
  ⟨(update_nonmatching_recurses demoDirFS 0 ⟨[], []⟩ demoDir (by decide)).1
      [demoChild] (by decide),
   (update_nonmatching_recurses demoDirFS 0 ⟨[], []⟩ demoNoDir (by decide)).2 (by decide)⟩

/-- C7: the run loop returns nil (clean exit) exactly on the end-of-stream
result, returns the error itself on any other `Event()` error, routes every
event whose op is `Remove` to `Watcher.Remove` on its name, and routes every
event with any other op identically to `Watcher.Update` on its name. -/
theorem watch_step_routing (fs : FS) (fuel : Nat) (st : WState)
    (e : Event) (code : Nat) (rest : List EvResult) :
    watch fs fuel st (.eof :: rest) = (st, .cleanExit) ∧
    watch fs fuel st (.fail code :: rest) = (st, .failed code) ∧
    (e.op = Op.remove →
      watch fs fuel st (.ev e :: rest) = watch fs fuel (remove st e.name) rest) ∧
    (e.op ≠ Op.remove →
      watch fs fuel st (.ev e :: rest) =
        watch fs fuel (update fs fuel st e.name).1 rest) := by
  refine ⟨rfl, rfl, ?_, ?_⟩
  · intro h
    simp only [watch, if_pos h]
  · intro h
    simp only [watch, if_neg h]

/-- Witness for C7 on one-element streams: the clean exit, the fatal error,
the Remove routing and the Write routing, each at a concrete event. -/
theorem watch_step_routing_witness :
    watch demoFS 1 ⟨[], []⟩ [EvResult.eof] = (⟨[], []⟩, .cleanExit) ∧
    watch demoFS 1 ⟨[], []⟩ [EvResult.fail 7] = (⟨[], []⟩, .failed 7) ∧
    watch demoFS 1 ⟨[], []⟩ [EvResult.ev ⟨demoPod, Op.remove⟩] =
      watch demoFS 1 (remove ⟨[], []⟩ demoPod) [] ∧
    watch demoFS 1 ⟨[], []⟩ [EvResult.ev ⟨demoLog, Op.write⟩] =
      watch demoFS 1 (update demoFS 1 ⟨[], []⟩ demoLog).1 [] :=
  ⟨(watch_step_routing demoFS 1 ⟨[], []⟩ ⟨demoPod, Op.remove⟩ 7 []).1,
   (watch_step_routing demoFS 1 ⟨[], []⟩ ⟨demoPod, Op.remove⟩ 7 []).2.1,
   (watch_step_routing demoFS 1 ⟨[], []⟩ ⟨demoPod, Op.remove⟩ 7 []).2.2.1 rfl,
   (watch_step_routing demoFS 1 ⟨[], []⟩ ⟨demoLog, Op.write⟩ 7 []).2.2.2 (by decide)⟩

/-- C8 (modelled from the spec, the `symnotify` implementation not being under
`src/`): when the file behind a watched symlink's registered target is
replaced by a new file at the same target path, the watcher re-resolves and
re-registers the new target and emits a single `Chmod` event whose name is the
symlink's own path, rather than a `Create`/`Remove` event pair. -/
theorem symlink_retarget_chmod (lk : SymLink) (currentId : Nat) (op : Op)
    (h : currentId ≠ lk.targetId) :
    (translateTargetEvent lk currentId op).1 = ⟨lk.linkPath, Op.chmod⟩ ∧
    (translateTargetEvent lk currentId op).2.targetId = currentId := by
  simp [translateTargetEvent, if_neg h]

/-- Witness for C8: a remove event on a retargeted link (identity 2 replacing
identity 1) surfaces as a `Chmod` on the link path. -/
theorem symlink_retarget_chmod_witness :
    (translateTargetEvent ⟨demoLog, 1⟩ 2 Op.remove).1 = ⟨demoLog, Op.chmod⟩ ∧
    (translateTargetEvent ⟨demoLog, 1⟩ 2 Op.remove).2.targetId = 2 :=
  symlink_retarget_chmod ⟨demoLog, 1⟩ 2 Op.remove (by decide)

theorem alistGet_filter_key {α : Type} [DecidableEq α] (q : α → Bool) (m : List (α × Nat))
    (k : α) :
    alistGet (m.filter (fun kv => ! q kv.1)) k = if q k then none else alistGet m k := by
  induction m with
  | nil => by_cases h : q k = true <;> simp [alistGet, h]
  | cons kv rest ih =>
    by_cases hq : q kv.1 = true
    · by_cases hk : kv.1 = k
      · subst hk
        simp [List.filter_cons, hq, ih]
      · simp [List.filter_cons, hq, ih, alistGet, hk]
    · by_cases hk : kv.1 = k
      · subst hk
        simp [List.filter_cons, hq, alistGet]
      · simp [List.filter_cons, hq, alistGet, hk, ih]

theorem remove_sizes_get (st : WState) (path : Path) (h : isPodDir path = true) (k : Path) :
    alistGet (remove st path).sizes k =
      if path.isPrefixOf k then none else alistGet st.sizes k := by
  simp only [remove, if_pos h]
  exact alistGet_filter_key (fun k => path.isPrefixOf k) st.sizes k

theorem remove_metrics_get (st : WState) (path : Path) (h : isPodDir path = true)
    (l : LogLabels) :
    alistGet (remove st path).metrics l =
      if st.sizes.any (fun kv => path.isPrefixOf kv.1 && parse kv.1 == some l) then none
      else alistGet st.metrics l := by
  simp only [remove, if_pos h]
  exact alistGet_filter_key
    (fun l => st.sizes.any (fun kv => path.isPrefixOf kv.1 && parse kv.1 == some l))
    st.metrics l

/-- C4: `Remove(path)` performs cleanup exactly when `logPodDir` matches the
path: every `SizeTable` entry whose key is prefixed by `path` is deleted and
every such entry's parsed label combination becomes entirely absent from the
counter vector, while unprefixed size entries and unaffected label
combinations keep their bindings; on any path the pod-directory pattern does
not match — a single log file, say — `Remove` changes nothing at all. -/
theorem remove_podDir_iff (st : WState) (path : Path) :
    (isPodDir path = true →
      (∀ k : Path, path <+: k → alistGet (remove st path).sizes k = none) ∧
      (∀ k : Path, ¬ path <+: k → alistGet (remove st path).sizes k = alistGet st.sizes k) ∧
      (∀ l : LogLabels, (∃ kv ∈ st.sizes, path <+: kv.1 ∧ parse kv.1 = some l) →
        alistGet (remove st path).metrics l = none) ∧
      (∀ l : LogLabels, (¬ ∃ kv ∈ st.sizes, path <+: kv.1 ∧ parse kv.1 = some l) →
        alistGet (remove st path).metrics l = alistGet st.metrics l)) ∧
    (isPodDir path = false → remove st path = st) := by
  constructor
  · intro h
    refine ⟨?_, ?_, ?_, ?_⟩
    · intro k hk
      rw [remove_sizes_get st path h k, if_pos (by simpa [ List.isPrefixOf_iff_prefix] using hk)]
    · intro k hk
      rw [remove_sizes_get st path h k, if_neg (by simpa [ List.isPrefixOf_iff_prefix] using hk)]
    · intro l hl
      rw [remove_metrics_get st path h l, if_pos ?_]
      simpa [List.any_eq_true, List.isPrefixOf_iff_prefix] using hl
    · intro l hl
      rw [remove_metrics_get st path h l, if_neg ?_]
      simpa [List.any_eq_true, List.isPrefixOf_iff_prefix] using hl
  · intro h
    simp only [remove, h, Bool.false_eq_true, if_false]

/-- State used by the C4 witness: one tracked log file with its counter. -/
def remState : WState := ⟨[(demoLog, 12)], [(demoLabels, 12)]⟩

/-- Witness for C4: removing the owning pod directory erases the stored size
and the whole counter series; removing the log file itself changes nothing. -/
theorem remove_podDir_iff_witness :
    alistGet (remove remState demoPod).sizes demoLog = none ∧
    alistGet (remove remState demoPod).metrics demoLabels = none ∧
    remove remState demoLog = remState :=
  ⟨((remove_podDir_iff remState demoPod).1 (by decide)).1 demoLog (by decide),
   ((remove_podDir_iff remState demoPod).1 (by decide)).2.2.1 demoLabels
     ⟨(demoLog, 12), by decide, by decide, by decide⟩,
   (remove_podDir_iff remState demoLog).2 (by decide)⟩

/-- Pod-directory path of the C10 sibling example. -/
def sibRoot : Path := "/r/a_b_c".toList

/-- A stored key under the sibling directory `/r/a_b_cd`, of which `sibRoot`
is nevertheless a plain string prefix. -/
def sibKey : Path := "/r/a_b_cd/e/0.log".toList

/-- A stored key that does not have `sibRoot` as a string prefix. -/
def sibOther : Path := "/q/n_p_d/c/0.log".toList

/-- The labels `sibKey` parses to. -/
def sibLabels : LogLabels := ⟨"a".toList, "b".toList, "cd".toList, "e".toList⟩

/-- The labels `sibOther` parses to. -/
def sibOtherLabels : LogLabels := ⟨"n".toList, "p".toList, "d".toList, "c".toList⟩

/-- State used by the C10 sibling-directory example: both stored paths have
their counter series. -/
def sibState : WState :=
  ⟨[(sibKey, 5), (sibOther, 7)], [(sibLabels, 5), (sibOtherLabels, 7)]⟩

/-- C10: the prefix test of `Remove` is a purely lexical string prefix: for a
pod-directory path, every stored key of which it is a string prefix loses its
size entry, and the counter series of that key's parsed labels is deleted —
including, as the concrete conjuncts show, keys under a distinct sibling
directory whose name merely extends the final segment — while every stored
key of which it is not a string prefix keeps its size binding (and, in the
concrete state, its counter series). -/
theorem remove_prefix_lexical :
    (∀ (st : WState) (path k : Path), isPodDir path = true → path <+: k →
      alistGet (remove st path).sizes k = none) ∧
    (∀ (st : WState) (path : Path) (kv : Path × Nat) (l : LogLabels),
      isPodDir path = true → kv ∈ st.sizes → path <+: kv.1 → parse kv.1 = some l →
      alistGet (remove st path).metrics l = none) ∧
    (∀ (st : WState) (path k : Path), isPodDir path = true → ¬ path <+: k →
      alistGet (remove st path).sizes k = alistGet st.sizes k) ∧
    (sibRoot <+: sibKey ∧ parse sibKey = some sibLabels ∧
      alistGet (remove sibState sibRoot).sizes sibKey = none ∧
      alistGet (remove sibState sibRoot).metrics sibLabels = none ∧
      alistGet (remove sibState sibRoot).sizes sibOther = some 7 ∧
      alistGet (remove sibState sibRoot).metrics sibOtherLabels = some 7) := by
  refine ⟨?_, ?_, ?_, by decide, by decide, by decide, by decide, by decide, by decide⟩
  · intro st path k h hk
    rw [remove_sizes_get st path h k, if_pos (by simpa [ List.isPrefixOf_iff_prefix] using hk)]
  · intro st path kv l h hkv hpre hparse
    rw [remove_metrics_get st path h l, if_pos ?_]
    refine List.any_eq_true.mpr ⟨kv, hkv, ?_⟩
    simp only [Bool.and_eq_true, beq_iff_eq]
    exact ⟨by rw [ List.isPrefixOf_iff_prefix]; exact hpre, hparse⟩
  · intro st path k h hk
    rw [remove_sizes_get st path h k, if_neg (by simpa [ List.isPrefixOf_iff_prefix] using hk)]

/-- Witness for C10: the three universally quantified parts applied to the
sibling-directory state — the lexically prefixed sibling key loses both its
size entry and its counter series, the unprefixed key keeps its size. -/
theorem remove_prefix_lexical_witness :
    alistGet (remove sibState sibRoot).sizes sibKey = none ∧
    alistGet (remove sibState sibRoot).metrics sibLabels = none ∧
    alistGet (remove sibState sibRoot).sizes sibOther = alistGet sibState.sizes sibOther :=
  ⟨remove_prefix_lexical.1 sibState sibRoot sibKey (by decide) (by decide),
   remove_prefix_lexical.2.1 sibState sibRoot (sibKey, 5) sibLabels
     (by decide) (by decide) (by decide) (by decide),
   remove_prefix_lexical.2.2.1 sibState sibRoot sibOther (by decide) (by decide)⟩

/-- Pointwise ordering between two counter vectors: every label's value (0
when absent) is no smaller, and every existing series still exists with a
value no smaller. -/
def counterLE (m m' : List (LogLabels × Nat)) : Prop :=
  ∀ l : LogLabels, getOr0 m l ≤ getOr0 m' l ∧
    ∀ v, alistGet m l = some v → ∃ v', alistGet m' l = some v' ∧ v ≤ v'

theorem counterLE_refl (m : List (LogLabels × Nat)) : counterLE m m :=
  fun _ => ⟨le_refl _, fun v hv => ⟨v, hv, le_refl v⟩⟩

theorem counterLE_trans {m1 m2 m3 : List (LogLabels × Nat)}
    (h12 : counterLE m1 m2) (h23 : counterLE m2 m3) : counterLE m1 m3 := by
  intro l
  refine ⟨le_trans (h12 l).1 (h23 l).1, ?_⟩
  intro v hv
  obtain ⟨v2, hv2, h2⟩ := (h12 l).2 v hv
  obtain ⟨v3, hv3, h3⟩ := (h23 l).2 v2 hv2
  exact ⟨v3, hv3, le_trans h2 h3⟩

theorem counterLE_set (m : List (LogLabels × Nat)) (l : LogLabels) (add : Nat) :
    counterLE m (alistSet m l (getOr0 m l + add)) := by
  intro l'
  by_cases hl : l = l'
  · subst hl
    constructor
    · rw [getOr0_alistSet_same]
      exact Nat.le_add_right _ _
    · intro v hv
      refine ⟨getOr0 m l + add, alistGet_alistSet_same .., ?_⟩
      have : getOr0 m l = v := by simp [getOr0, hv]
      omega
  · rw [alistGet_alistSet_ne m l l' _ hl]
    constructor
    · simp [getOr0, alistGet_alistSet_ne m l l' _ hl]
    · intro v hv
      exact ⟨v, hv, le_refl v⟩

theorem foldl_counterLE {f : WState → Path → WState}
    (h : ∀ s p, counterLE s.metrics (f s p).metrics) :
    ∀ (ns : List Path) (st : WState), counterLE st.metrics ((ns.foldl f st).metrics) := by
  intro ns
  induction ns with
  | nil => intro st; exact counterLE_refl _
  | cons n ns ih =>
    intro st
    exact counterLE_trans (h st n) (ih (f st n))

theorem update_counterLE (fs : FS) :
    ∀ (fuel : Nat) (st : WState) (path : Path),
      counterLE st.metrics ((update fs fuel st path).1).metrics := by
  intro fuel
  induction fuel with
  | zero => intro st path; exact counterLE_refl _
  | succ n ih =>
    intro st path
    cases hp : parse path with
    | some l =>
      cases hs : fs.stat path with
      | ok size =>
        simp only [update, hp, hs]
        exact counterLE_set st.metrics l _
      | notExist => simp only [update, hp, hs]; exact counterLE_refl _
      | otherErr => simp only [update, hp, hs]; exact counterLE_refl _
    | none =>
      cases hd : fs.readDir path with
      | some names =>
        simp only [update, hp, hd]
        rw [update_children_fst]
        exact foldl_counterLE (fun s p => ih s (fjoin path p)) names st
      | none => simp only [update, hp, hd]; exact counterLE_refl _

/-- A sequence of `Update` calls, one per path, threading the state. -/
def runUpdates (fs : FS) (fuel : Nat) (st : WState) (paths : List Path) : WState :=
  paths.foldl (fun s p => (update fs fuel s p).1) st

/-- C2: over any sequence of `Update` calls on any paths, each counter's value
(0 when the series is absent) never decreases, and a series that exists keeps
existing with a value at least its old one — the amount added at each step is
non-negative. -/
theorem runUpdates_counter_monotone (fs : FS) (fuel : Nat) (st : WState)
    (paths : List Path) (l : LogLabels) :
    getOr0 st.metrics l ≤ getOr0 (runUpdates fs fuel st paths).metrics l ∧
    ∀ v, alistGet st.metrics l = some v →
      ∃ v', alistGet (runUpdates fs fuel st paths).metrics l = some v' ∧ v ≤ v' :=
  foldl_counterLE (fun s p => update_counterLE fs fuel s p) paths st l

theorem takeWhile_append_run (p : Char → Bool) (sep : Char) (hsep : p sep = false)
    (r : Path) :
    ∀ a : Path, (∀ c ∈ a, p c = true) →
      (a ++ sep :: r).takeWhile p = a ∧ (a ++ sep :: r).dropWhile p = sep :: r := by
  intro a
  induction a with
  | nil => intro _; simp [List.takeWhile_cons, List.dropWhile_cons, hsep]
  | cons c a ih =>
    intro ha
    have hc : p c = true := ha c (List.mem_cons_self c a)
    have ha' : ∀ d ∈ a, p d = true := fun d hd => ha d (List.mem_cons_of_mem _ hd)
    simp [List.takeWhile_cons, List.dropWhile_cons, hc, (ih ha').1, (ih ha').2]

theorem expectRun_append (p : Char → Bool) (sep : Char) (hsep : p sep = false)
    {a : Path} (hne : a ≠ []) (ha : ∀ c ∈ a, p c = true) (r : Path) :
    expectRun p sep (a ++ sep :: r) = some (a, r) := by
  obtain ⟨ht, hd⟩ := takeWhile_append_run p sep hsep r a ha
  simp [expectRun, hd, ht, hne]

theorem expectRun_eq_some {p : Char → Bool} {sep : Char} {x a r : Path}
    (h : expectRun p sep x = some (a, r)) :
    x = a ++ sep :: r ∧ a ≠ [] ∧ ∀ c ∈ a, p c = true := by
  unfold expectRun at h
  cases hd : x.dropWhile p with
  | nil => simp [hd] at h
  | cons c rest =>
    simp only [hd] at h
    by_cases hc : x.takeWhile p ≠ [] ∧ c = sep
    · rw [if_pos hc] at h
      have hx := List.takeWhile_append_dropWhile p x
      simp only [Option.some.injEq, Prod.mk.injEq] at h
      obtain ⟨ha, hr⟩ := h
      refine ⟨?_, ?_, ?_⟩
      · rw [← hx, hd, ha, hc.2, hr]
      · rw [← ha]; exact hc.1
      · intro ch hch
        rw [← ha] at hch
        exact List.mem_takeWhile_imp hch
    · rw [if_neg hc] at h
      exact absurd h (by simp)

theorem structParse_eq_some {x : Path} {l : LogLabels} {r : Path}
    (h : structParse x = some (l, r)) : StructDecomp x l r := by
  cases x with
  | nil => simp [structParse] at h
  | cons c rest =>
    simp only [structParse] at h
    by_cases hc : c = '/'
    · rw [if_pos hc] at h
      cases h1 : expectRun nameChar '_' rest with
      | none => simp [h1] at h
      | some p1 =>
        obtain ⟨a, r1⟩ := p1
        simp only [h1] at h
        cases h2 : expectRun nameChar '_' r1 with
        | none => simp [h2] at h
        | some p2 =>
          obtain ⟨b, r2⟩ := p2
          simp only [h2] at h
          cases h3 : expectRun uuidChar '/' r2 with
          | none => simp [h3] at h
          | some p3 =>
            obtain ⟨u, r3⟩ := p3
            simp only [h3] at h
            cases h4 : expectRun nameChar '/' r3 with
            | none => simp [h4] at h
            | some p4 =>
              obtain ⟨d, r4⟩ := p4
              simp only [h4, Option.some.injEq, Prod.mk.injEq] at h
              obtain ⟨hl, hr⟩ := h
              obtain ⟨e1, ne1, m1⟩ := expectRun_eq_some h1
              obtain ⟨e2, ne2, m2⟩ := expectRun_eq_some h2
              obtain ⟨e3, ne3, m3⟩ := expectRun_eq_some h3
              obtain ⟨e4, ne4, m4⟩ := expectRun_eq_some h4
              subst hl
              subst hc
              constructor
              · exact ⟨⟨ne1, m1⟩, ⟨ne2, m2⟩, ⟨ne3, m3⟩, ⟨ne4, m4⟩⟩
              · simp [e1, e2, e3, e4, hr]
    · rw [if_neg hc] at h
      exact absurd h (by simp)

theorem structParse_of_decomp {x : Path} {l : LogLabels} {r : Path}
    (h : StructDecomp x l r) : structParse x = some (l, r) := by
  obtain ⟨⟨⟨hn1, hn2⟩, ⟨hm1, hm2⟩, ⟨hu1, hu2⟩, ⟨hc1, hc2⟩⟩, hx⟩ := h
  subst hx
  have e1 := expectRun_append nameChar '_' (by decide) hn1 hn2
    (l.Name ++ '_' :: (l.UUID ++ '/' :: (l.Container ++ '/' :: r)))
  have e2 := expectRun_append nameChar '_' (by decide) hm1 hm2
    (l.UUID ++ '/' :: (l.Container ++ '/' :: r))
  have e3 := expectRun_append uuidChar '/' (by decide) hu1 hu2
    (l.Container ++ '/' :: r)
  have e4 := expectRun_append nameChar '/' (by decide) hc1 hc2 r
  simp [structParse, e1, e2, e3, e4]

theorem goodRun_not_mem {p : Char → Bool} {a : Path} (h : goodRun p a) {d : Char}
    (hp : p d = false) : d ∉ a := by
  intro hm
  rw [h.2 d hm] at hp
  exact Bool.noConfusion hp

/-- The part of a `structParse` match before its remainder: the whole matched
structured segment including the final slash. -/
def structPre (l : LogLabels) : Path :=
  '/' :: l.Namespace ++ '_' :: l.Name ++ '_' :: l.UUID ++ '/' :: l.Container ++ ['/']

theorem structDecomp_pre {x : Path} {l : LogLabels} {r : Path} (h : StructDecomp x l r) :
    x = structPre l ++ r := by
  rw [h.2]
  simp [structPre]

theorem structPre_getLast (l : LogLabels) : (structPre l).getLast? = some '/' := by
  have h : structPre l =
      ('/' :: l.Namespace ++ '_' :: l.Name ++ '_' :: l.UUID ++ '/' :: l.Container) ++ ['/'] := by
    simp [structPre]
  rw [h, List.getLast?_concat]

theorem structPre_count (l : LogLabels) (h : goodLabels l) :
    (structPre l).count '/' = 3 := by
  obtain ⟨h1, h2, h3, h4⟩ := h
  have n1 : l.Namespace.count '/' = 0 :=
    List.count_eq_zero.mpr (goodRun_not_mem h1 (by decide))
  have n2 : l.Name.count '/' = 0 :=
    List.count_eq_zero.mpr (goodRun_not_mem h2 (by decide))
  have n3 : l.UUID.count '/' = 0 :=
    List.count_eq_zero.mpr (goodRun_not_mem h3 (by decide))
  have n4 : l.Container.count '/' = 0 :=
    List.count_eq_zero.mpr (goodRun_not_mem h4 (by decide))
  simp [structPre, List.count_append, List.count_cons, n1, n2, n3, n4]

theorem isDotLog_iff {x : Path} : isDotLog x = true ↔ ∃ w, x = '.' :: 'l' :: 'o' :: 'g' :: w := by
  unfold isDotLog
  rw [ List.isPrefixOf_iff_prefix]
  constructor
  · rintro ⟨t, ht⟩
    exact ⟨t, ht.symm⟩
  · rintro ⟨w, hw⟩
    exact ⟨w, hw.symm⟩

theorem hasTail_build (w : Path) :
    ∀ v : Path, ('\n' : Char) ∉ v → hasTail (v ++ '.' :: 'l' :: 'o' :: 'g' :: w) = true := by
  intro v
  induction v with
  | nil => intro _; simp [hasTail, isDotLog, List.isPrefixOf]
  | cons c v ih =>
    intro hv
    have hc : (c != '\n') = true := by
      simp only [bne_iff_ne, ne_eq]
      exact fun h => hv (h ▸ List.mem_cons_self c v)
    simp [hasTail, hc, ih (fun h => hv (List.mem_cons_of_mem _ h))]

theorem hasTail_decomp : ∀ {x : Path}, hasTail x = true →
    ∃ v w, x = v ++ '.' :: 'l' :: 'o' :: 'g' :: w ∧ ('\n' : Char) ∉ v := by
  intro x
  induction x with
  | nil => intro h; simp [hasTail] at h
  | cons c rest ih =>
    intro h
    cases hdl : isDotLog (c :: rest) with
    | true =>
      obtain ⟨w, hw⟩ := isDotLog_iff.mp hdl
      exact ⟨[], w, by simp [hw], by simp⟩
    | false =>
      simp only [hasTail, hdl, Bool.false_or, Bool.and_eq_true, bne_iff_ne, ne_eq] at h
      obtain ⟨v, w, hvw, hv⟩ := ih h.2
      refine ⟨c :: v, w, by simp [hvw], ?_⟩
      intro hm
      rcases List.mem_cons.mp hm with h1 | h1
      · exact h.1 h1.symm
      · exact hv h1

theorem hasTail_extend {t : Path} (ht : hasTail t = true) :
    ∀ u : Path, ('\n' : Char) ∉ u → hasTail (u ++ t) = true := by
  intro u
  induction u with
  | nil => intro _; simpa using ht
  | cons c u ih =>
    intro hu
    have hc : (c != '\n') = true := by
      simp only [bne_iff_ne, ne_eq]
      exact fun h => hu (h ▸ List.mem_cons_self c u)
    simp [hasTail, hc, ih (fun h => hu (List.mem_cons_of_mem _ h))]

theorem noNL_of_hasTail_split {a b b' : Path} (h1 : hasTail (a ++ b) = true)
    (h2 : hasTail (a ++ b') = false) : ('\n' : Char) ∉ a := by
  obtain ⟨v, w, hvw, hv⟩ := hasTail_decomp h1
  have hvw' : a ++ b = v ++ ('.' :: 'l' :: 'o' :: 'g' :: w) := hvw
  rcases List.append_eq_append_iff.mp hvw' with ⟨t, ht1, ht2⟩ | ⟨t, ht1, ht2⟩
  · intro hm
    exact hv (ht1 ▸ List.mem_append_left t hm)
  · have ht2' : t ++ b = ['.', 'l', 'o', 'g'] ++ w := ht2.symm
    rcases List.append_eq_append_iff.mp ht2' with ⟨u', hu1, hu2⟩ | ⟨u', hu1, hu2⟩
    · have htp : t <+: ['.', 'l', 'o', 'g'] := ⟨u', hu1.symm⟩
      intro hm
      rcases List.mem_append.mp (ht1 ▸ hm) with hm1 | hm1
      · exact hv hm1
      · have := htp.subset hm1
        simp at this
    · exfalso
      have key : a ++ b' = v ++ '.' :: 'l' :: 'o' :: 'g' :: (u' ++ b') := by
        rw [ht1, hu1]
        simp
      rw [key, hasTail_build (u' ++ b') v hv] at h2
      exact Bool.noConfusion h2

theorem parseAt_eq_some {x : Path} {l : LogLabels} (h : parseAt x = some l) :
    ∃ r, structParse x = some (l, r) ∧ hasTail r = true := by
  cases hs : structParse x with
  | none => simp [parseAt, hs] at h
  | some p =>
    obtain ⟨m, r⟩ := p
    simp only [parseAt, hs] at h
    by_cases ht : hasTail r = true
    · rw [if_pos ht] at h
      have hm := Option.some.inj h
      subst hm
      exact ⟨r, rfl, ht⟩
    · rw [if_neg ht] at h
      exact absurd h (by simp)

theorem parseAt_intro {x : Path} {l : LogLabels} {r : Path}
    (hs : structParse x = some (l, r)) (ht : hasTail r = true) : parseAt x = some l := by
  simp [parseAt, hs, ht]

theorem parse_eq_none_of_no_slash : ∀ {x : Path}, ('/' : Char) ∉ x → parse x = none := by
  intro x
  induction x with
  | nil => intro _; rfl
  | cons c rest ih =>
    intro h
    have hc : ¬ c = '/' := fun hh => h (hh ▸ List.mem_cons_self c rest)
    have hpa : parseAt (c :: rest) = none := by
      simp [parseAt, structParse, hc]
    simp [parse, hpa, ih (fun hm => h (List.mem_cons_of_mem _ hm))]

theorem parse_isSome_of_suffix : ∀ {x y : Path} {l : LogLabels},
    y <:+ x → parseAt y = some l → (parse x).isSome = true := by
  intro x
  induction x with
  | nil =>
    intro y l hs hp
    rw [List.suffix_nil.mp hs] at hp
    simp [parseAt, structParse] at hp
  | cons c rest ih =>
    intro y l hs hp
    rcases List.suffix_cons_iff.mp hs with h | h
    · subst h
      simp [parse, hp]
    · cases hpa : parseAt (c :: rest) with
      | some m => simp [parse, hpa]
      | none =>
        simp only [parse, hpa]
        exact ih h hp

theorem parse_to_suffix : ∀ {x : Path} {l : LogLabels}, parse x = some l →
    ∃ y, y <:+ x ∧ parseAt y = some l := by
  intro x
  induction x with
  | nil => intro l h; simp [parse] at h
  | cons c rest ih =>
    intro l h
    cases hpa : parseAt (c :: rest) with
    | some m =>
      have hl : m = l := by
        simp only [parse, hpa] at h
        exact Option.some.inj h
      exact ⟨c :: rest, List.suffix_refl _, hl ▸ hpa⟩
    | none =>
      simp only [parse, hpa] at h
      obtain ⟨y, hy, hp⟩ := ih h
      exact ⟨y, hy.trans (List.suffix_cons c rest), hp⟩

theorem suffix_append_cases {y u v : Path} (h : y <:+ u ++ v) :
    y <:+ v ∨ ∃ w, w <:+ u ∧ w ≠ [] ∧ y = w ++ v := by
  obtain ⟨z, hz⟩ := h
  rcases List.append_eq_append_iff.mp hz with ⟨a, ha1, ha2⟩ | ⟨c, hc1, hc2⟩
  · by_cases ha : a = []
    · subst ha
      left
      rw [ha2]
      simp
    · right
      exact ⟨a, ⟨z, ha1.symm⟩, ha, ha2⟩
  · left
    exact ⟨c, hc2.symm⟩

theorem structParse_append_of {q : Path} {l : LogLabels} {r₀ : Path}
    (h : structParse q = some (l, r₀)) (s : Path) :
    structParse (q ++ s) = some (l, r₀ ++ s) := by
  have d := structParse_eq_some h
  refine structParse_of_decomp ⟨d.1, ?_⟩
  rw [d.2]
  simp

theorem structParse_append_some {q s : Path} (hs : ('/' : Char) ∉ s) {l : LogLabels}
    {r : Path} (h : structParse (q ++ s) = some (l, r)) :
    ∃ r₀, structParse q = some (l, r₀) ∧ r = r₀ ++ s := by
  have d := structParse_eq_some h
  have hqs : q ++ s = structPre l ++ r := structDecomp_pre d
  rcases List.append_eq_append_iff.mp hqs with ⟨a, ha1, ha2⟩ | ⟨c, hc1, hc2⟩
  · by_cases ha : a = []
    · subst ha
      have hq : q = structPre l := by simpa using ha1.symm
      have hr : r = s := (by simpa using ha2 : s = r).symm
      refine ⟨[], ?_, by simp [hr]⟩
      refine structParse_of_decomp ⟨d.1, ?_⟩
      rw [hq]
      simp [structPre]
    · exfalso
      have hlast : a.getLast? = some '/' := by
        have h1 : (structPre l).getLast? = a.getLast? := by
          rw [ha1, List.getLast?_append]
          cases hal : a.getLast? with
          | none => exact absurd (List.getLast?_eq_none_iff.mp hal) ha
          | some ch => rfl
        rw [← h1, structPre_getLast]
      have hmem : ('/' : Char) ∈ a := List.mem_of_mem_getLast? hlast
      exact hs (ha2 ▸ List.mem_append_left r hmem)
  · refine ⟨c, ?_, hc2⟩
    refine structParse_of_decomp ⟨d.1, ?_⟩
    rw [hc1]
    simp [structPre]

theorem struct_remainder_suffix {x y : Path} {l1 l2 : LogLabels} {r1 r2 : Path}
    (hx : structParse x = some (l1, r1)) (hyx : y <:+ x)
    (hy : structParse y = some (l2, r2)) : r2 <:+ r1 := by
  have dx := structParse_eq_some hx
  have dy := structParse_eq_some hy
  have hr1x : r1 <:+ x := ⟨structPre l1, (structDecomp_pre dx).symm⟩
  have hr2y : r2 <:+ y := ⟨structPre l2, (structDecomp_pre dy).symm⟩
  have hr2x : r2 <:+ x := hr2y.trans hyx
  rcases List.suffix_or_suffix_of_suffix hr2x hr1x with hcase | hcase
  · exact hcase
  · obtain ⟨w, hw⟩ := hcase
    by_cases hwnil : w = []
    · subst hwnil
      rw [← hw]
      simp
    · exfalso
      have cx : x.count '/' = 3 + r1.count '/' := by
        rw [structDecomp_pre dx, List.count_append, structPre_count l1 dx.1]
      have cy : y.count '/' = 3 + r2.count '/' := by
        rw [structDecomp_pre dy, List.count_append, structPre_count l2 dy.1]
      have hcy : y.count '/' ≤ x.count '/' := hyx.sublist.count_le '/'
      have hcw : r2.count '/' = w.count '/' + r1.count '/' := by
        rw [← hw, List.count_append]
      have hw0 : w.count '/' = 0 := by omega
      have hwns : ('/' : Char) ∉ w := List.count_eq_zero.mp hw0
      obtain ⟨z, hz⟩ := hyx
      have h1 : structPre l1 ++ r1 = (z ++ (structPre l2 ++ w)) ++ r1 := by
        rw [← structDecomp_pre dx, ← hz, structDecomp_pre dy, ← hw]
        simp
      have h2 : structPre l1 = z ++ (structPre l2 ++ w) := List.append_cancel_right h1
      have hlast : w.getLast? = some '/' := by
        have h3 : (structPre l1).getLast? = w.getLast? := by
          rw [h2, ← List.append_assoc, List.getLast?_append]
          cases hal : w.getLast? with
          | none => exact absurd (List.getLast?_eq_none_iff.mp hal) hwnil
          | some ch => rfl
        rw [← h3, structPre_getLast]
      exact hwns (List.mem_of_mem_getLast? hlast)

theorem parseAt_append_eq {q s1 s2 : Path} {l1 l2 : LogLabels}
    (hns1 : ('/' : Char) ∉ s1) (hns2 : ('/' : Char) ∉ s2)
    (h1 : parseAt (q ++ s1) = some l1) (h2 : parseAt (q ++ s2) = some l2) : l1 = l2 := by
  obtain ⟨r1, hs1, _⟩ := parseAt_eq_some h1
  obtain ⟨r2, hs2, _⟩ := parseAt_eq_some h2
  obtain ⟨rho1, hrho1, _⟩ := structParse_append_some hns1 hs1
  obtain ⟨rho2, hrho2, _⟩ := structParse_append_some hns2 hs2
  have h := hrho1.symm.trans hrho2
  simp only [Option.some.injEq, Prod.mk.injEq] at h
  exact h.1

theorem parseAt_cross {P s1 s2 : Path} {l1 l2 : LogLabels}
    (hns1 : ('/' : Char) ∉ s1) (hns2 : ('/' : Char) ∉ s2)
    (h1 : parseAt (P ++ s1) = some l1) (h2 : parseAt (P ++ s2) = none)
    (h3 : parse (P ++ s2) = some l2) : False := by
  obtain ⟨r1, hsp1, ht1⟩ := parseAt_eq_some h1
  obtain ⟨rho, hrho, hr1⟩ := structParse_append_some hns1 hsp1
  subst hr1
  have hsp2 : structParse (P ++ s2) = some (l1, rho ++ s2) := structParse_append_of hrho s2
  have ht2 : hasTail (rho ++ s2) = false := by
    cases hh : hasTail (rho ++ s2) with
    | false => rfl
    | true =>
      rw [parseAt_intro hsp2 hh] at h2
      exact Option.noConfusion h2
  have hnl : ('\n' : Char) ∉ rho := noNL_of_hasTail_split ht1 ht2
  obtain ⟨y, hyx, hy⟩ := parse_to_suffix h3
  obtain ⟨r2, hsy, hty⟩ := parseAt_eq_some hy
  rcases suffix_append_cases hyx with hcase | ⟨u', hu', hune, hyeq⟩
  · have dd := structParse_eq_some hsy
    have hsl : ('/' : Char) ∈ y := by
      rw [dd.2]
      exact List.mem_append_left _ (List.mem_cons_self _ _)
    exact hns2 (hcase.sublist.subset hsl)
  · subst hyeq
    obtain ⟨rho2, hrho2, hr2⟩ := structParse_append_some hns2 hsy
    subst hr2
    have hsuf : rho2 <:+ rho := struct_remainder_suffix hrho hu' hrho2
    obtain ⟨w, hw⟩ := hsuf
    have hnlw : ('\n' : Char) ∉ w := fun hm => hnl (hw ▸ List.mem_append_left _ hm)
    have htt : hasTail (rho ++ s2) = true := by
      rw [← hw, List.append_assoc]
      exact hasTail_extend hty w hnlw
    rw [htt] at ht2
    exact Bool.noConfusion ht2

/-- C3: two paths that both match the log-file naming pattern and differ only
in the final rotation-name filename segment (a common directory prefix, then a
slash-free final segment) yield identical labels from `LogLabels.Parse`, so
both accumulate into the same counter series; the labels never depend on the
filename fragment. -/
theorem parse_ignores_filename_segment :
    ∀ (dir s1 s2 : Path) (l1 l2 : LogLabels), ('/' : Char) ∉ s1 → ('/' : Char) ∉ s2 →
      parse (dir ++ s1) = some l1 → parse (dir ++ s2) = some l2 → l1 = l2 := by
  intro dir
  induction dir with
  | nil =>
    intro s1 s2 l1 l2 h1 h2 hp1 hp2
    rw [List.nil_append, parse_eq_none_of_no_slash h1] at hp1
    exact Option.noConfusion hp1
  | cons c P ih =>
    intro s1 s2 l1 l2 h1 h2 hp1 hp2
    have hp1' : parse (c :: (P ++ s1)) = some l1 := hp1
    have hp2' : parse (c :: (P ++ s2)) = some l2 := hp2
    cases ha1 : parseAt (c :: (P ++ s1)) with
    | some m1 =>
      cases ha2 : parseAt (c :: (P ++ s2)) with
      | some m2 =>
        simp only [parse, ha1] at hp1'
        simp only [parse, ha2] at hp2'
        rw [← Option.some.inj hp1', ← Option.some.inj hp2']
        exact parseAt_append_eq (q := c :: P) h1 h2 ha1 ha2
      | none =>
        exact (parseAt_cross (P := c :: P) h1 h2 ha1 ha2 hp2).elim
    | none =>
      cases ha2 : parseAt (c :: (P ++ s2)) with
      | some m2 =>
        exact (parseAt_cross (P := c :: P) h2 h1 ha2 ha1 hp1).elim
      | none =>
        simp only [parse, ha1] at hp1'
        simp only [parse, ha2] at hp2'
        exact ih s1 s2 l1 l2 h1 h2 hp1' hp2'

/-- Common directory prefix of the C3 witness. -/
def c3dir : Path := "/a_b_c/d/".toList

/-- Witness for C3: two rotation names under the same container directory
parse to the same labels. -/
theorem parse_ignores_filename_segment_witness :
    (⟨"a".toList, "b".toList, "c".toList, "d".toList⟩ : LogLabels) =
      ⟨"a".toList, "b".toList, "c".toList, "d".toList⟩ :=
  parse_ignores_filename_segment c3dir ("0.log".toList) ("1.log".toList) _ _
    (by decide) (by decide) (by decide) (by decide)

/-- C9 (amended): label extraction accepts a path exactly when it contains a
substring `/<ns>_<pod>_<uuid>/<container>/` followed later by `.log` with no
newline in between (the `.*` of the pattern crosses `/` but not newlines);
the labels reported come from the leftmost such match. -/
theorem parse_accepts_iff (x : Path) : (parse x).isSome = true ↔ acceptedShape x := by
  constructor
  · intro h
    obtain ⟨l, hl⟩ := Option.isSome_iff_exists.mp h
    obtain ⟨y, hyx, hy⟩ := parse_to_suffix hl
    obtain ⟨r, hsr, htr⟩ := parseAt_eq_some hy
    have d := structParse_eq_some hsr
    obtain ⟨v, w, hr, hv⟩ := hasTail_decomp htr
    obtain ⟨u, hu⟩ := hyx
    refine ⟨l, u, v, w, d.1, hv, ?_⟩
    rw [← hu, d.2, hr]
    simp
  · rintro ⟨l, u, v, w, hgl, hv, hx⟩
    have hst : structParse ('/' :: l.Namespace ++ '_' :: l.Name ++ '_' :: l.UUID ++
        '/' :: l.Container ++ '/' :: (v ++ '.' :: 'l' :: 'o' :: 'g' :: w)) =
        some (l, v ++ '.' :: 'l' :: 'o' :: 'g' :: w) :=
      structParse_of_decomp ⟨hgl, rfl⟩
    have hpa := parseAt_intro hst (hasTail_build w v hv)
    refine parse_isSome_of_suffix ⟨u, ?_⟩ hpa
    rw [hx]
    simp

/-- A path containing the claimed pattern for labels (p, q, a, f) whose
leftmost `logFile` match carries different labels (x, y, e, w). -/
def c9path : Path := "/x_y_e/w/p_q_a/f/0.log".toList

/-- The labels of the second, non-leftmost occurrence inside `c9path`. -/
def c9inner : LogLabels := ⟨"p".toList, "q".toList, "a".toList, "f".toList⟩

/-- A path containing the claimed pattern with a newline standing between the
container segment and the `.log` occurrence. -/
def c9nlPath : Path := "/a_b_c/d/".toList ++ '\n' :: "x.log".toList

/-- The labels of the (only) pattern occurrence inside `c9nlPath`. -/
def c9nlLabels : LogLabels := ⟨"a".toList, "b".toList, "c".toList, "d".toList⟩

/-- Counterexample to C9 as stated: `c9path` contains the substring
`/p_q_a/f/` followed later by `.log`, yet is not accepted as a log file of
that container (the leftmost match wins); and `c9nlPath` contains
`/a_b_c/d/` followed later by `.log`, yet is not accepted at all, because a
newline stands between them and `.*` does not match newlines. -/
theorem parse_substring_claim_false :
    (claimedContains c9path c9inner ∧ parse c9path ≠ some c9inner) ∧
    (claimedContains c9nlPath c9nlLabels ∧ parse c9nlPath = none) := by
  refine ⟨⟨⟨by decide, "/x_y_e/w".toList, "0".toList, [], by decide⟩, by decide⟩,
    ⟨⟨by decide, [], '\n' :: "x".toList, [], by decide⟩, by decide⟩⟩

/-- A log path nested two directories below its container directory, with the
pod directory not directly under the root. -/
def c9nested : Path := "/root/sub/a_b_c/d/deep/e/0.log".toList

/-- Witness for the amended C9: a nested, non-root-anchored occurrence is
accepted. -/
theorem parse_accepts_iff_witness : (parse c9nested).isSome = true :=
  (parse_accepts_iff c9nested).mpr
    ⟨⟨"a".toList, "b".toList, "c".toList, "d".toList⟩, "/root/sub".toList,
      "deep/e/0".toList, [], by decide, by decide, by decide⟩

/-- Witness for C2: starting from a counter at 5, an `Update` of a 12-byte log
file leaves the series present with the larger value 17. -/
theorem runUpdates_counter_monotone_witness :
    getOr0 [(demoLabels, 5)] demoLabels ≤
      getOr0 (runUpdates demoFS 1 ⟨[], [(demoLabels, 5)]⟩ [demoLog]).metrics demoLabels ∧
    ∃ v', alistGet (runUpdates demoFS 1 ⟨[], [(demoLabels, 5)]⟩ [demoLog]).metrics demoLabels =
      some v' ∧ 5 ≤ v' :=
  ⟨(runUpdates_counter_monotone demoFS 1 ⟨[], [(demoLabels, 5)]⟩ [demoLog] demoLabels).1,
   (runUpdates_counter_monotone demoFS 1 ⟨[], [(demoLabels, 5)]⟩ [demoLog] demoLabels).2
     5 (by decide)⟩

end LogWatch
